import Mathlib

namespace BedrockUpdater

/-! Shallow embedding of the bedrock-updater pipeline
(src/src/updater.rs together with the parallel pipeline in src/src/main.rs).

The file system is modelled flatly: a tree is a list of (path, content)
pairs, where a path is the list of its components.  Entries earlier in the
list shadow later ones, so writing a file is consing.  Directories are
implicit: a directory or file named n exists at the top level iff some
stored path starts with n. -/

abbrev Path := List String

abbrev FS := List (Path × String)

def FS.lookup : FS → Path → Option String
  | [], _ => none
  | (q, c) :: rest, p => if q = p then some c else FS.lookup rest p

def FS.keys (fs : FS) : List Path := fs.map (fun e => e.1)

/-- Model of destination.exists() for server_dir.join(file_name): some
entry's path begins with that name. -/
def FS.existsName (fs : FS) (name : String) : Bool :=
  fs.any (fun e => e.1.head? == some name)

/-- Names of the immediate entries of a directory in the flat model: the
first components of the stored paths (std::fs::read_dir yields each
immediate entry name once). -/
def FS.topNames (fs : FS) : List String :=
  (fs.filterMap (fun e => e.1.head?)).dedup

/-- Wellformedness of the flat model: paths are nonempty, and no stored
path is a prefix of a different stored path (nothing is both a file and a
directory), as holds for a real directory tree. -/
def FS.WF (fs : FS) : Prop :=
  (∀ p ∈ FS.keys fs, p ≠ []) ∧
  ∀ p ∈ FS.keys fs, ∀ q ∈ FS.keys fs, p ≠ q → p.isPrefixOf q = false

/-- Cross-tree wellformedness: no entry of one tree is a strict prefix of
an entry of the other, so copying never runs a file onto a directory or
vice versa and fs::copy / fs_extra::dir::copy act as plain overwrites, as
the flat model assumes. -/
def FS.NoCross (a b : FS) : Prop :=
  ∀ p ∈ FS.keys a, ∀ q ∈ FS.keys b, p ≠ q →
    p.isPrefixOf q = false ∧ q.isPrefixOf p = false

/-- Error type: the variants of BedrockUpdaterError constructed by the
pipeline code in src/src/updater.rs and src/src/main.rs, plus tags for the
io/zip errors that are converted via the question-mark operator. -/
inductive UErr where
  | noDownloadElement
  | tooManyDownloadElements
  | noDownloadLinkAttr
  | cannotParseUrl
  | noServerPath
  | noFileName
  | noVersionString
  | noCurrentVersion
  | unparseableVersion
  | extractFailed
  | copyFailed
  deriving DecidableEq, Repr

/-- The mutable state an updater run touches: the live installation tree
(server_dir), the version record file (version_path, none when the file
does not exist) and the staging tree (update_dir, none when the directory
does not exist). -/
structure UpdaterState where
  server : FS
  record : Option String
  staging : Option FS
  deriving DecidableEq, Repr

/-- Model of fs_extra::dir::copy(source, server_dir, overwrite = true) for
the staged top-level directory called name: every staged path under that
name is written into the destination, overwriting conflicting files and
leaving all other destination entries in place (fs_extra copies inside the
destination directory, merging). -/
def copyDirMerge (server staged : FS) (name : String) : FS :=
  (staged.filter (fun e => e.1.head? == some name)) ++ server

/-- One iteration body of the copy loop of install_server: fs::copy for a
plain file (the staged tree has an entry whose whole path is [name]),
fs_extra::dir::copy for a directory. -/
def copyTopEntry (staged server : FS) (name : String) : FS :=
  match FS.lookup staged [name] with
  | some c => ([name], c) :: server
  | none => copyDirMerge server staged name

/-- The copy loop of install_server over the immediate entries of the
staging tree.  fail is the io-failure oracle for fs::copy and
fs_extra::dir::copy: when it answers true for an entry the copy returns an
io error, which the question-mark operator propagates, aborting the loop. -/
def installLoop (fail : String → Bool) (bl : List String) (staged : FS) :
    List String → FS → FS × Option UErr
  | [], server => (server, none)
  | n :: rest, server =>
    if !(bl.contains n) || !(FS.existsName server n) then
      if fail n then (server, some UErr.copyFailed)
      else installLoop fail bl staged rest (copyTopEntry staged server n)
    else
      installLoop fail bl staged rest server

/-- Model of BedrockUpdater::install_server (src/src/updater.rs lines
209-272).  extractRes is the outcome of zip_extract::extract of the
downloaded archive into the staging tree (none = extraction error); on
success it holds the extracted files, which land on top of whatever the
staging tree already held.  After a fully successful copy loop the version
record is overwritten with the new version's textual form and the staging
tree is removed; every failure returns early through the question-mark
operator, before the version write. -/
def install_server (fail : String → Bool) (extractRes : Option FS)
    (bl : List String) (newVersion : String) (st : UpdaterState) :
    UpdaterState × Option UErr :=
  let staging0 := st.staging.getD []
  match extractRes with
  | none => ({ st with staging := some staging0 }, some UErr.extractFailed)
  | some extracted =>
    let staged := extracted ++ staging0
    let res := installLoop fail bl staged (FS.topNames staged) st.server
    match res.2 with
    | some e =>
      ({ st with server := res.1, staging := some staged }, some e)
    | none =>
      ({ server := res.1, record := some newVersion, staging := none }, none)

/-! Version strings.  The latest version is cut out of the download file
name with the regex \d+(\.\d+){3} (updater.rs get_latest_version); both
version strings are then parsed by version_compare's Version::from, which
is modelled here for dot-separated numeric strings (the only shapes the
pipeline and the claims exercise): it splits on the dots and reads every
chunk as a nonnegative integer. -/

/-- Longest leading run of ascii digits of a character list, with the
rest of the list. -/
def digitRun : List Char → List Char × List Char
  | [] => ([], [])
  | c :: cs =>
    if c.isDigit then
      let (d, r) := digitRun cs
      (c :: d, r)
    else ([], c :: cs)

/-- Matcher for (\.\d+){k}: k groups of a dot followed by a nonempty digit
run, returning the matched characters.  Each \d+ is greedy, which for this
pattern coincides with the regex crate's leftmost-first semantics, since a
dot can never extend a digit run. -/
def matchDotRuns : Nat → List Char → Option (List Char)
  | 0, _ => some []
  | k + 1, cs =>
    match cs with
    | '.' :: cs1 =>
      let (d, r) := digitRun cs1
      if d.isEmpty then none
      else (matchDotRuns k r).map (fun m => '.' :: (d ++ m))
    | _ => none

/-- Match of \d+(\.\d+){3} anchored at the start of the list. -/
def matchVersionAt (cs : List Char) : Option (List Char) :=
  let (d, r) := digitRun cs
  if d.isEmpty then none
  else (matchDotRuns 3 r).map (fun m => d ++ m)

/-- Leftmost match of \d+(\.\d+){3}: the first start position that admits
a match wins, exactly Regex::find's leftmost-first rule. -/
def findVersionChars : List Char → Option (List Char)
  | [] => none
  | c :: cs =>
    match matchVersionAt (c :: cs) with
    | some m => some m
    | none => findVersionChars cs

/-- Model of pattern.find(text).as_str() for the version regex. -/
def findVersion (s : String) : Option String :=
  (findVersionChars s.data).map (fun cs => String.mk cs)

/-- Split of a character list at every occurrence of sep (the chunks keep
their order; there is always at least one chunk). -/
def splitOnChar (sep : Char) : List Char → List (List Char)
  | [] => [[]]
  | c :: cs =>
    if c = sep then [] :: splitOnChar sep cs
    else
      match splitOnChar sep cs with
      | [] => [[c]]
      | chunk :: rest => (c :: chunk) :: rest

/-- Nonempty all-digit chunk read as a nonnegative integer. -/
def chunkNat (cs : List Char) : Option Nat :=
  if cs.isEmpty then none
  else if cs.all (fun c => c.isDigit) then
    some (cs.foldl (fun n c => n * 10 + (c.toNat - 48)) 0)
  else none

/-- Numeric part lists of a version string: split on the dots and read
every chunk as an integer. -/
def versionPartsFromChars (cs : List Char) : Option (List Nat) :=
  (splitOnChar '.' cs).mapM chunkNat

/-- Model of a version_compare::Version value: the original text (which
Version::as_str returns and install_server writes to the version record)
plus its numeric parts. -/
structure VersionM where
  str : String
  parts : List Nat
  deriving DecidableEq, Repr

/-- Model of version_compare's Version::from, restricted to dot-separated
numeric version strings; strings with non-numeric or empty chunks are
modelled as unparseable. -/
def version_from (s : String) : Option VersionM :=
  (versionPartsFromChars s.data).map (fun ps => ⟨s, ps⟩)

/-- Integer comparison of two parts, as i32::cmp on the parsed digits. -/
def cmpNat (a b : Nat) : Ordering :=
  if a < b then Ordering.lt else if a = b then Ordering.eq else Ordering.gt

/-- Model of version_compare's part-wise comparison: first part has the
highest precedence; when one version runs out of parts, remaining parts of
the other count as greater unless they are all zero. -/
def cmpParts : List Nat → List Nat → Ordering
  | [], ys => if ys.all (fun y => y = 0) then Ordering.eq else Ordering.lt
  | x :: xs, [] => if x = 0 then cmpParts xs [] else Ordering.gt
  | x :: xs, y :: ys =>
    match cmpNat x y with
    | Ordering.eq => cmpParts xs ys
    | o => o

/-! The version-resolution functions. -/

/-- Model of BedrockUpdater::get_latest_version (src/src/updater.rs lines
154-169): the first \d+(\.\d+){3} substring of its argument, or
NoVersionString.  main.rs lines 98-118 use the same body after first
taking the file name of the path. -/
def get_latest_version (s : String) : Except UErr String :=
  match findVersion s with
  | none => Except.error UErr.noVersionString
  | some m => Except.ok m

/-- Model of BedrockUpdater::get_current_version (src/src/updater.rs lines
132-150).  Arguments: the set_first_version override, the version file
contents (none when the file was unreadable or absent), and the version
record state; the result pairs the returned string with the record state
after the call (fs::write replaces the record with the override whenever
the override is present). -/
def get_current_version (set_first_version contents : Option String)
    (record : Option String) : Except UErr String × Option String :=
  match set_first_version, contents with
  | none, none => (Except.error UErr.noCurrentVersion, record)
  | none, some c => (Except.ok c, record)
  | some v, _ => (Except.ok v, some v)

/-- Model of BedrockUpdater::get_versions (src/src/updater.rs lines
172-192).  The current-version future is awaited first (performing the
override write), then Version::from is applied to the current string, then
the latest-version future is awaited, then Version::from is applied to the
regex match; each failure propagates in that order. -/
def get_versions (download_link_file : String)
    (contents set_first : Option String) (record : Option String) :
    Except UErr (VersionM × VersionM) × Option String :=
  match get_current_version set_first contents record with
  | (Except.error e, r) => (Except.error e, r)
  | (Except.ok curStr, r) =>
    match version_from curStr with
    | none => (Except.error UErr.unparseableVersion, r)
    | some current =>
      match get_latest_version download_link_file with
      | Except.error e => (Except.error e, r)
      | Except.ok latStr =>
        match version_from latStr with
        | none => (Except.error UErr.unparseableVersion, r)
        | some latest => (Except.ok (current, latest), r)

/-! Link extraction and the url handed to version resolution. -/

/-- Model of a parsed reqwest::Url: Url::path() returns the path component
only; the query string is kept separately and never enters the path. -/
structure UrlM where
  path : String
  query : Option String
  deriving DecidableEq, Repr

/-- Model of get_latest_download_link (src/src/updater.rs lines 98-126 and
src/src/main.rs lines 70-94).  elems lists the elements the selector
finds, each given by its href attribute (none when the attribute is
missing); parseUrl is Url::parse.  The code takes the first element of the
iterator (NoDownloadElement when there is none), errors with
TooManyDownloadElements when a second element exists, then requires the
href attribute (NoDownloadLinkAttr), then url-parses it. -/
def get_latest_download_link (elems : List (Option String))
    (parseUrl : String → Option UrlM) : Except UErr UrlM :=
  match elems with
  | [] => Except.error UErr.noDownloadElement
  | download_element :: rest =>
    match rest with
    | _ :: _ => Except.error UErr.tooManyDownloadElements
    | [] =>
      match download_element with
      | none => Except.error UErr.noDownloadLinkAttr
      | some link =>
        match parseUrl link with
        | none => Except.error UErr.cannotParseUrl
        | some u => Except.ok u

/-- The latest-version string resolution of BedrockUpdater::run_updater
(src/src/updater.rs lines 315-342): the version regex is applied to
cloned_download_link.path(), the whole path component of the url. -/
def run_updater_latest (u : UrlM) : Except UErr String :=
  get_latest_version u.path

/-- Model of Path::file_name on a url path: the last nonempty
slash-separated component (covers paths without dot-dot components, the
only shapes a download url path takes). -/
def fileNameOf (path : String) : Option String :=
  (((splitOnChar '/' path.data).filter (fun cs => !cs.isEmpty)).getLast?).map
    (fun cs => String.mk cs)

/-- The latest-version string resolution of main.rs (lines 98-118 with the
call at line 222): file_path.file_name() is taken first (NoFileName when
absent) and the version regex runs on the file name alone. -/
def main_get_latest_version (file_path : String) : Except UErr String :=
  match fileNameOf file_path with
  | none => Except.error UErr.noFileName
  | some fn => get_latest_version fn

/-! The update decision. -/

/-- The hard-coded overwrite blacklist of try_update (src/src/updater.rs
lines 300-301). -/
def overwrite_blacklist : List String :=
  ["permissions.json", "allowlist.json", "server.properties"]

inductive UpdateAction where
  | upToDate
  | aheadOfRemote
  | installUpdate
  deriving DecidableEq, Repr

/-- The branch try_update takes (src/src/updater.rs lines 286-292):
current == latest, current > latest, else install.  version_compare
implements both operators through the part-wise comparison. -/
def try_update_action (current latest : VersionM) : UpdateAction :=
  if cmpParts current.parts latest.parts = Ordering.eq then
    UpdateAction.upToDate
  else if cmpParts current.parts latest.parts = Ordering.gt then
    UpdateAction.aheadOfRemote
  else
    UpdateAction.installUpdate

/-- Model of BedrockUpdater::try_update (src/src/updater.rs lines
274-313): up-to-date and ahead-of-remote return Ok without touching any
state; otherwise the archive is downloaded and install_server runs with
the hard-coded blacklist and latest.as_str() as the new version text.  The
download and extraction outcome is folded into extractRes. -/
def try_update (fail : String → Bool) (extractRes : Option FS)
    (current latest : VersionM) (st : UpdaterState) :
    UpdaterState × Option UErr :=
  match try_update_action current latest with
  | UpdateAction.upToDate => (st, none)
  | UpdateAction.aheadOfRemote => (st, none)
  | UpdateAction.installUpdate =>
    install_server fail extractRes overwrite_blacklist latest.str st

/-! Helper lemmas about the flat file-system model. -/

/-- First-some choice on options, the shape FS.lookup takes on appended
trees. -/
def oOr (a b : Option String) : Option String :=
  match a with
  | some c => some c
  | none => b

theorem oOr_some (c : String) (b : Option String) : oOr (some c) b = some c := rfl

theorem oOr_none (b : Option String) : oOr none b = b := rfl

theorem FS.lookup_append (a b : FS) (p : Path) :
    FS.lookup (a ++ b) p = oOr (FS.lookup a p) (FS.lookup b p) := by
  induction a with
  | nil => rfl
  | cons e rest ih =>
    obtain ⟨q, c⟩ := e
    by_cases h : q = p
    · simp [FS.lookup, h, oOr]
    · simp [FS.lookup, h, ih]

theorem FS.lookup_filter (fs : FS) (p : Path) (f : Path → Bool) :
    FS.lookup (fs.filter (fun e => f e.1)) p =
      if f p then FS.lookup fs p else none := by
  induction fs with
  | nil =>
    cases hf : f p <;> simp [FS.lookup, hf]
  | cons e rest ih =>
    obtain ⟨q, c⟩ := e
    by_cases hq : q = p
    · subst hq
      cases hf : f q <;> simp [List.filter_cons, hf, FS.lookup, ih]
    · cases hf : f q <;> cases hp : f p <;>
        simp [List.filter_cons, hf, hp, FS.lookup, hq, ih]

theorem FS.lookup_filter_head (staged : FS) (p : Path) (n : String) :
    FS.lookup (staged.filter (fun e => e.1.head? == some n)) p =
      if (p.head? == some n) then FS.lookup staged p else none :=
  FS.lookup_filter staged p (fun q => q.head? == some n)

theorem FS.mem_keys_of_lookup (fs : FS) (p : Path) (c : String)
    (h : FS.lookup fs p = some c) : p ∈ FS.keys fs := by
  induction fs with
  | nil => simp [FS.lookup] at h
  | cons e rest ih =>
    obtain ⟨q, c'⟩ := e
    by_cases hq : q = p
    · simp [FS.keys, hq]
    · simp only [FS.lookup, if_neg hq] at h
      simp [FS.keys] at ih ⊢
      exact Or.inr (ih h)

theorem FS.lookup_isSome_of_mem_keys (fs : FS) (p : Path)
    (h : p ∈ FS.keys fs) : (FS.lookup fs p).isSome = true := by
  induction fs with
  | nil => simp [FS.keys] at h
  | cons e rest ih =>
    obtain ⟨q, c⟩ := e
    by_cases hq : q = p
    · simp [FS.lookup, hq]
    · simp only [FS.keys, List.map_cons, List.mem_cons] at h
      rcases h with h | h
      · exact absurd h.symm hq
      · simpa [FS.lookup, hq] using ih h

theorem FS.lookup_eq_none_of_not_mem_keys (fs : FS) (p : Path)
    (h : p ∉ FS.keys fs) : FS.lookup fs p = none := by
  cases hl : FS.lookup fs p with
  | none => rfl
  | some c => exact absurd (FS.mem_keys_of_lookup fs p c hl) h

theorem FS.mem_topNames_iff (fs : FS) (n : String) :
    n ∈ FS.topNames fs ↔ ∃ p ∈ FS.keys fs, p.head? = some n := by
  simp [FS.topNames, List.mem_dedup, List.mem_filterMap, FS.keys]

theorem FS.topNames_nodup (fs : FS) : (FS.topNames fs).Nodup :=
  List.nodup_dedup _

instance (fs : FS) : Decidable (FS.WF fs) := by
  unfold FS.WF
  infer_instance

instance (a b : FS) : Decidable (FS.NoCross a b) := by
  unfold FS.NoCross
  infer_instance

theorem FS.existsName_cons (e : Path × String) (fs : FS) (m : String) :
    FS.existsName (e :: fs) m =
      ((e.1.head? == some m) || FS.existsName fs m) := by
  simp [FS.existsName]

theorem FS.existsName_append (a b : FS) (m : String) :
    FS.existsName (a ++ b) m = (FS.existsName a m || FS.existsName b m) := by
  simp [FS.existsName, List.any_append]

theorem FS.existsName_filter_head (staged : FS) (n m : String) (h : m ≠ n) :
    FS.existsName (staged.filter (fun e => e.1.head? == some n)) m = false := by
  simp only [FS.existsName, List.any_eq_false]
  intro e he
  rw [List.mem_filter] at he
  have h1 : e.1.head? = some n := by simpa using he.2
  simp [h1, h.symm]

/-! Helper lemmas about the copy loop of install_server. -/

theorem copyTopEntry_lookup_other (staged server : FS) (n : String) (p : Path)
    (h : p.head? ≠ some n) :
    FS.lookup (copyTopEntry staged server n) p = FS.lookup server p := by
  unfold copyTopEntry
  cases hl : FS.lookup staged [n] with
  | some c =>
    have hne : ([n] : Path) ≠ p := by
      intro e
      exact h (by rw [← e]; rfl)
    simp [FS.lookup, hne]
  | none =>
    unfold copyDirMerge
    rw [FS.lookup_append, FS.lookup_filter_head]
    have hf : (p.head? == some n) = false := by
      simpa using h
    simp [hf, oOr_none]

theorem copyTopEntry_existsName_other (staged server : FS) (n m : String)
    (h : m ≠ n) :
    FS.existsName (copyTopEntry staged server n) m = FS.existsName server m := by
  unfold copyTopEntry
  cases hl : FS.lookup staged [n] with
  | some c =>
    rw [FS.existsName_cons]
    simp [Ne.symm h]
  | none =>
    unfold copyDirMerge
    rw [FS.existsName_append, FS.existsName_filter_head staged n m h]
    simp

theorem copyTopEntry_lookup_head (staged server : FS) (n : String) (p : Path)
    (hwf : FS.WF staged) (hp : p.head? = some n) :
    FS.lookup (copyTopEntry staged server n) p =
      oOr (FS.lookup staged p) (FS.lookup server p) := by
  unfold copyTopEntry
  cases hl : FS.lookup staged [n] with
  | some c =>
    by_cases hpn : p = [n]
    · subst hpn
      simp [FS.lookup, hl, oOr_some]
    · have hnone : FS.lookup staged p = none := by
        cases hlp : FS.lookup staged p with
        | none => rfl
        | some c' =>
          have hpk : p ∈ FS.keys staged := FS.mem_keys_of_lookup staged p c' hlp
          have hnk : ([n] : Path) ∈ FS.keys staged :=
            FS.mem_keys_of_lookup staged [n] c hl
          have hpre : ([n] : Path).isPrefixOf p = false :=
            hwf.2 [n] hnk p hpk (fun e => hpn e.symm)
          obtain ⟨p0, pt, rfl⟩ : ∃ p0 pt, p = p0 :: pt := by
            cases p with
            | nil => simp at hp
            | cons p0 pt => exact ⟨p0, pt, rfl⟩
          have hp0 : p0 = n := by simpa using hp
          subst hp0
          simp [List.isPrefixOf] at hpre
      have hne : ([n] : Path) ≠ p := fun e => hpn e.symm
      simp [FS.lookup, hne, hnone, oOr_none]
  | none =>
    unfold copyDirMerge
    rw [FS.lookup_append, FS.lookup_filter_head]
    have hf : (p.head? == some n) = true := by simpa using hp
    simp [hf]

theorem installLoop_snd_none (bl : List String) (staged : FS) :
    ∀ (names : List String) (server : FS),
      (installLoop (fun _ => false) bl staged names server).2 = none := by
  intro names
  induction names with
  | nil => intro server; rfl
  | cons n rest ih =>
    intro server
    simp only [installLoop]
    split
    · exact ih _
    · exact ih _

theorem installLoop_lookup_preserved (fail : String → Bool) (bl : List String)
    (staged : FS) :
    ∀ (names : List String) (server : FS) (p : Path),
      (∀ n ∈ names, p.head? ≠ some n) →
      FS.lookup (installLoop fail bl staged names server).1 p =
        FS.lookup server p := by
  intro names
  induction names with
  | nil => intro server p _; rfl
  | cons n rest ih =>
    intro server p h
    have hn : p.head? ≠ some n := h n (List.mem_cons_self n rest)
    have hrest : ∀ m ∈ rest, p.head? ≠ some m :=
      fun m hm => h m (List.mem_cons_of_mem n hm)
    simp only [installLoop]
    split
    · split
      · rfl
      · rw [ih _ p hrest, copyTopEntry_lookup_other staged server n p hn]
    · exact ih _ p hrest

theorem installLoop_lookup (bl : List String) (staged : FS)
    (hwf : FS.WF staged) :
    ∀ (names : List String) (server : FS) (name : String) (p : Path),
      names.Nodup → name ∈ names → p.head? = some name →
      FS.lookup (installLoop (fun _ => false) bl staged names server).1 p =
        if (bl.contains name && FS.existsName server name) = true
        then FS.lookup server p
        else oOr (FS.lookup staged p) (FS.lookup server p) := by
  intro names
  induction names with
  | nil => intro server name p _ hmem; simp at hmem
  | cons n rest ih =>
    intro server name p hnd hmem hp
    have hnd' := List.nodup_cons.mp hnd
    rcases List.mem_cons.mp hmem with heq | hmem'
    · subst heq
      have hpres : ∀ m ∈ rest, p.head? ≠ some m := by
        intro m hm he
        have : name = m := by
          rw [hp] at he
          exact Option.some.inj he
        exact hnd'.1 (this ▸ hm)
      cases hb : bl.contains name <;> cases hs : FS.existsName server name <;>
        simp only [installLoop, hb, hs, Bool.not_false, Bool.not_true,
          Bool.false_or, Bool.or_false, Bool.true_or, Bool.or_true,
          Bool.true_and, Bool.false_and, if_true, if_false, Bool.false_eq_true,
          ite_true, ite_false] <;>
        first
          | (rw [installLoop_lookup_preserved _ _ _ _ _ _ hpres,
              copyTopEntry_lookup_head staged server name p hwf hp])
          | (rw [installLoop_lookup_preserved _ _ _ _ _ _ hpres])
    · have hne : name ≠ n := by
        intro e
        exact hnd'.1 (e ▸ hmem')
      have hph : p.head? ≠ some n := by
        rw [hp]
        intro e
        exact hne (Option.some.inj e)
      simp only [installLoop]
      split
      · split
        · simp at *
        · rw [ih (copyTopEntry staged server n) name p hnd'.2 hmem' hp,
            copyTopEntry_existsName_other staged server n name hne,
            copyTopEntry_lookup_other staged server n p hph]
      · exact ih server name p hnd'.2 hmem' hp

theorem install_server_err_record (fail : String → Bool) (ext : Option FS)
    (bl : List String) (v : String) (st : UpdaterState) (e : UErr)
    (h : (install_server fail ext bl v st).2 = some e) :
    (install_server fail ext bl v st).1.record = st.record := by
  cases ext with
  | none => simp [install_server]
  | some extracted =>
    simp only [install_server] at h ⊢
    cases hres : (installLoop fail bl (extracted ++ st.staging.getD [])
        (FS.topNames (extracted ++ st.staging.getD [])) st.server).2 with
    | none => rw [hres] at h; simp at h
    | some e' => rfl

theorem install_server_no_fail (bl : List String) (v : String)
    (st : UpdaterState) (staged : FS) (hst : st.staging = none) :
    install_server (fun _ => false) (some staged) bl v st =
      ({ server :=
          (installLoop (fun _ => false) bl staged (FS.topNames staged)
            st.server).1,
         record := some v, staging := none }, none) := by
  simp only [install_server, hst, Option.getD_none, List.append_nil,
    installLoop_snd_none]

theorem install_server_no_fail_server (bl : List String) (v : String)
    (st : UpdaterState) (staged : FS) (hst : st.staging = none) :
    (install_server (fun _ => false) (some staged) bl v st).1.server =
      (installLoop (fun _ => false) bl staged (FS.topNames staged)
        st.server).1 := by
  rw [install_server_no_fail bl v st staged hst]

theorem install_server_no_fail_snd (bl : List String) (v : String)
    (st : UpdaterState) (staged : FS) (hst : st.staging = none) :
    (install_server (fun _ => false) (some staged) bl v st).2 = none := by
  rw [install_server_no_fail bl v st staged hst]

/-- Claim C1: for every top-level staged entry whose name is in the
blacklist and which already exists in the installation tree, install
leaves the existing installation-tree entry unchanged; every other
top-level staged entry is copied into the installation tree, overwriting
any existing file of that name. -/
theorem c1_install_blacklist_behavior (bl : List String) (v : String)
    (st : UpdaterState) (staged : FS) (hwf : FS.WF staged)
    (hst : st.staging = none) (hnc : FS.NoCross staged st.server) :
    (install_server (fun _ => false) (some staged) bl v st).2 = none ∧
    ∀ (name : String) (p : Path), p.head? = some name →
      (((bl.contains name && FS.existsName st.server name) = true →
        FS.lookup
          (install_server (fun _ => false) (some staged) bl v st).1.server p =
          FS.lookup st.server p) ∧
       ((bl.contains name && FS.existsName st.server name) = false →
        p ∈ FS.keys staged →
        FS.lookup
          (install_server (fun _ => false) (some staged) bl v st).1.server p =
          FS.lookup staged p)) := by
  refine ⟨install_server_no_fail_snd bl v st staged hst, ?_⟩
  intro name p hp
  rw [install_server_no_fail_server bl v st staged hst]
  constructor
  · intro hskip
    by_cases hmem : name ∈ FS.topNames staged
    · rw [installLoop_lookup bl staged hwf (FS.topNames staged) st.server
        name p (FS.topNames_nodup staged) hmem hp, if_pos hskip]
    · apply installLoop_lookup_preserved
      intro m hm he
      rw [hp] at he
      exact hmem ((Option.some.inj he) ▸ hm)
  · intro hcopy hkey
    have hmem : name ∈ FS.topNames staged :=
      (FS.mem_topNames_iff staged name).mpr ⟨p, hkey, hp⟩
    rw [installLoop_lookup bl staged hwf (FS.topNames staged) st.server
      name p (FS.topNames_nodup staged) hmem hp, if_neg (by rw [hcopy]; simp)]
    have hsome := FS.lookup_isSome_of_mem_keys staged p hkey
    cases hlp : FS.lookup staged p with
    | none => rw [hlp] at hsome; simp at hsome
    | some c => rw [oOr_some]

/-- Claim C1 witness: a blacklisted existing server.properties survives
with its old content while a non-blacklisted bedrock_server is
overwritten by the staged one. -/
theorem c1_witness :
    (install_server (fun _ => false)
      (some [(["server.properties"], "Y"), (["bedrock_server"], "v2")])
      overwrite_blacklist "1.21.0.3"
      ⟨[(["server.properties"], "X"), (["worlds", "w1"], "save")],
        some "1.20.0.1", none⟩).2 = none ∧
    FS.lookup (install_server (fun _ => false)
      (some [(["server.properties"], "Y"), (["bedrock_server"], "v2")])
      overwrite_blacklist "1.21.0.3"
      ⟨[(["server.properties"], "X"), (["worlds", "w1"], "save")],
        some "1.20.0.1", none⟩).1.server ["server.properties"] =
      FS.lookup [(["server.properties"], "X"), (["worlds", "w1"], "save")]
        ["server.properties"] ∧
    FS.lookup (install_server (fun _ => false)
      (some [(["server.properties"], "Y"), (["bedrock_server"], "v2")])
      overwrite_blacklist "1.21.0.3"
      ⟨[(["server.properties"], "X"), (["worlds", "w1"], "save")],
        some "1.20.0.1", none⟩).1.server ["bedrock_server"] =
      FS.lookup [(["server.properties"], "Y"), (["bedrock_server"], "v2")]
        ["bedrock_server"] := by
  have h := c1_install_blacklist_behavior overwrite_blacklist "1.21.0.3"
    ⟨[(["server.properties"], "X"), (["worlds", "w1"], "save")],
      some "1.20.0.1", none⟩
    [(["server.properties"], "Y"), (["bedrock_server"], "v2")]
    (by decide) rfl (by decide)
  exact ⟨h.1,
    (h.2 "server.properties" ["server.properties"] rfl).1 (by decide),
    (h.2 "bedrock_server" ["bedrock_server"] rfl).2 (by decide) (by decide)⟩

/-- Claim C2: install is atomic with respect to failure: on extraction
failure the installation tree and the version record are untouched, and
on any failure (in particular a mid-merge copy failure) the version
record is not updated, so a later run re-detects the same current
version. -/
theorem c2_install_failure_atomicity (fail : String → Bool)
    (ext : Option FS) (bl : List String) (v : String) (st : UpdaterState) :
    ((install_server fail none bl v st).1.server = st.server ∧
     (install_server fail none bl v st).1.record = st.record ∧
     (install_server fail none bl v st).2 = some UErr.extractFailed) ∧
    (∀ e : UErr, (install_server fail ext bl v st).2 = some e →
      (install_server fail ext bl v st).1.record = st.record) := by
  refine ⟨⟨rfl, rfl, rfl⟩, ?_⟩
  intro e h
  exact install_server_err_record fail ext bl v st e h

/-- Claim C2 witness: a concrete run whose only copy fails leaves the
version record at its old value. -/
theorem c2_witness :
    (install_server (fun n => n == "b") (some [(["b"], "y")]) [] "2.0.0.0"
      ⟨[], some "1.0.0.0", none⟩).1.record = some "1.0.0.0" :=
  (c2_install_failure_atomicity (fun n => n == "b") (some [(["b"], "y")])
    [] "2.0.0.0" ⟨[], some "1.0.0.0", none⟩).2 UErr.copyFailed (by decide)

/-- Claim C3 counterexample: an install attempt whose copy fails returns
with the staging tree still present, so the staging tree is not always
removed at the end of the install attempt. -/
theorem c3_counterexample :
    (install_server (fun n => n == "a") (some [(["a"], "y")]) [] "2.0.0.0"
      ⟨[(["a"], "old")], some "1.0.0.0", none⟩).2 = some UErr.copyFailed ∧
    (install_server (fun n => n == "a") (some [(["a"], "y")]) [] "2.0.0.0"
      ⟨[(["a"], "old")], some "1.0.0.0", none⟩).1.staging =
      some [(["a"], "y")] := by
  exact ⟨rfl, rfl⟩

/-- Claim C3 (amended): when install succeeds the version record contains
exactly the new version's textual form and the staging tree is removed;
when the attempt fails (extraction or copy failure) the staging tree is
left in place for the next attempt. -/
theorem c3_success_record_and_staging (fail : String → Bool)
    (ext : Option FS) (bl : List String) (v : String) (st : UpdaterState) :
    ((install_server fail ext bl v st).2 = none →
      (install_server fail ext bl v st).1.record = some v ∧
      (install_server fail ext bl v st).1.staging = none) ∧
    ((install_server fail ext bl v st).2 ≠ none →
      (install_server fail ext bl v st).1.staging ≠ none) := by
  cases ext with
  | none =>
    constructor
    · intro h; simp [install_server] at h
    · intro _; simp [install_server]
  | some extracted =>
    simp only [install_server]
    cases hres : (installLoop fail bl (extracted ++ st.staging.getD [])
        (FS.topNames (extracted ++ st.staging.getD [])) st.server).2 with
    | none => exact ⟨fun _ => ⟨rfl, rfl⟩, fun h => absurd rfl h⟩
    | some e => exact ⟨fun h => by simp at h, fun _ => by simp⟩

/-- Claim C3 witness: a fully successful concrete install ends with the
new version recorded and the staging tree removed, and a failing concrete
install ends with the staging tree still present. -/
theorem c3_witness :
    ((install_server (fun _ => false) (some [(["b"], "z")]) [] "3.0.0.0"
        ⟨[], none, none⟩).1.record = some "3.0.0.0" ∧
      (install_server (fun _ => false) (some [(["b"], "z")]) [] "3.0.0.0"
        ⟨[], none, none⟩).1.staging = none) ∧
    (install_server (fun n => n == "c") (some [(["c"], "y")]) [] "4.0.0.0"
      ⟨[], none, none⟩).1.staging ≠ none :=
  ⟨(c3_success_record_and_staging (fun _ => false) (some [(["b"], "z")])
      [] "3.0.0.0" ⟨[], none, none⟩).1 (by decide),
   (c3_success_record_and_staging (fun n => n == "c") (some [(["c"], "y")])
      [] "4.0.0.0" ⟨[], none, none⟩).2 (by decide)⟩

/-- Claim C10: the blacklist is consulted only for the names of top-level
staged entries: a staged file inside a subdirectory whose own file name is
blacklisted still overwrites the existing file at the same relative path,
provided the top-level directory itself is not skipped. -/
theorem c10_nested_blacklist_not_consulted (bl : List String) (v : String)
    (st : UpdaterState) (staged : FS) (name fname : String)
    (rest : List String) (oldC : String) (hwf : FS.WF staged)
    (hst : st.staging = none) (hnc : FS.NoCross staged st.server)
    (hrest : rest ≠ []) (hkey : (name :: rest) ∈ FS.keys staged)
    (hlast : (name :: rest).getLast? = some fname)
    (hbl : bl.contains fname = true)
    (hold : FS.lookup st.server (name :: rest) = some oldC)
    (hnoskip : (bl.contains name && FS.existsName st.server name) = false) :
    FS.lookup
      (install_server (fun _ => false) (some staged) bl v st).1.server
      (name :: rest) = FS.lookup staged (name :: rest) := by
  rw [install_server_no_fail_server bl v st staged hst]
  have hp : (name :: rest).head? = some name := rfl
  have hmem : name ∈ FS.topNames staged :=
    (FS.mem_topNames_iff staged name).mpr ⟨name :: rest, hkey, hp⟩
  rw [installLoop_lookup bl staged hwf (FS.topNames staged) st.server name
    (name :: rest) (FS.topNames_nodup staged) hmem hp,
    if_neg (by rw [hnoskip]; simp)]
  have hsome := FS.lookup_isSome_of_mem_keys staged (name :: rest) hkey
  cases hlp : FS.lookup staged (name :: rest) with
  | none => rw [hlp] at hsome; simp at hsome
  | some c => rw [oOr_some]

/-- Claim C10 witness: staged sub/server.properties overwrites the
existing sub/server.properties even though server.properties is in the
hard-coded blacklist. -/
theorem c10_witness :
    FS.lookup (install_server (fun _ => false)
      (some [(["sub", "server.properties"], "new")]) overwrite_blacklist
      "2.0.0.0"
      ⟨[(["sub", "server.properties"], "old")], some "1.0.0.0",
        none⟩).1.server ["sub", "server.properties"] =
      FS.lookup [(["sub", "server.properties"], "new")]
        ["sub", "server.properties"] :=
  c10_nested_blacklist_not_consulted overwrite_blacklist "2.0.0.0"
    ⟨[(["sub", "server.properties"], "old")], some "1.0.0.0", none⟩
    [(["sub", "server.properties"], "new")] "sub" "server.properties"
    ["server.properties"] "old" (by decide) rfl (by decide) (by decide)
    (by decide) rfl (by decide) (by decide) (by decide)

/-! Ordering lemmas for the version comparison. -/

theorem cmpNat_self (a : Nat) : cmpNat a a = Ordering.eq := by
  simp [cmpNat]

theorem cmpNat_eq_iff (a b : Nat) : cmpNat a b = Ordering.eq ↔ a = b := by
  unfold cmpNat
  split_ifs with h1 h2
  · simp
    omega
  · simp [h2]
  · simp
    omega

theorem cmpNat_lt_iff (a b : Nat) : cmpNat a b = Ordering.lt ↔ a < b := by
  unfold cmpNat
  split_ifs with h1 h2
  · simp [h1]
  · simp
    omega
  · simp
    omega

theorem cmpNat_swap (a b : Nat) : cmpNat b a = (cmpNat a b).swap := by
  unfold cmpNat
  split_ifs <;> first | rfl | (exfalso; omega)

theorem cmpParts_refl (v : List Nat) : cmpParts v v = Ordering.eq := by
  induction v with
  | nil => rfl
  | cons x xs ih => simp [cmpParts, cmpNat_self, ih]

theorem cmpParts_eq_of_length_eq (a : List Nat) :
    ∀ b : List Nat, a.length = b.length → cmpParts a b = Ordering.eq →
      a = b := by
  induction a with
  | nil =>
    intro b h _
    cases b with
    | nil => rfl
    | cons y ys => simp at h
  | cons x xs ih =>
    intro b h he
    cases b with
    | nil => simp at h
    | cons y ys =>
      have h' : xs.length = ys.length := by simpa using h
      cases hc : cmpNat x y with
      | eq =>
        have hxy : x = y := (cmpNat_eq_iff x y).mp hc
        simp only [cmpParts, hc] at he
        rw [hxy, ih ys h' he]
      | lt => simp [cmpParts, hc] at he
      | gt => simp [cmpParts, hc] at he

theorem cmpParts_nil_swap (b : List Nat) :
    cmpParts b [] = (cmpParts [] b).swap := by
  induction b with
  | nil => rfl
  | cons y ys ih =>
    by_cases h : y = 0
    · have h1 : cmpParts (y :: ys) [] = cmpParts ys [] := by
        simp [cmpParts, h]
      have h2 : cmpParts [] (y :: ys) = cmpParts [] ys := by
        simp [cmpParts, List.all_cons, h]
      rw [h1, h2, ih]
    · have h1 : cmpParts (y :: ys) [] = Ordering.gt := by
        simp [cmpParts, h]
      have h2 : cmpParts [] (y :: ys) = Ordering.lt := by
        simp [cmpParts, List.all_cons, h]
      rw [h1, h2]
      rfl

theorem cmpParts_swap (a : List Nat) :
    ∀ b : List Nat, cmpParts b a = (cmpParts a b).swap := by
  induction a with
  | nil => exact cmpParts_nil_swap
  | cons x xs ih =>
    intro b
    cases b with
    | nil =>
      rw [cmpParts_nil_swap (x :: xs)]
      cases cmpParts [] (x :: xs) <;> rfl
    | cons y ys =>
      cases hc : cmpNat x y with
      | eq =>
        have hc' : cmpNat y x = Ordering.eq := by
          rw [cmpNat_swap, hc]; rfl
        simp [cmpParts, hc, hc', ih ys]
      | lt =>
        have hc' : cmpNat y x = Ordering.gt := by
          rw [cmpNat_swap, hc]; rfl
        simp [cmpParts, hc, hc', Ordering.swap]
      | gt =>
        have hc' : cmpNat y x = Ordering.lt := by
          rw [cmpNat_swap, hc]; rfl
        simp [cmpParts, hc, hc', Ordering.swap]

theorem cmpParts_lt_trans_of_length (a : List Nat) :
    ∀ b c : List Nat, a.length = b.length → b.length = c.length →
      cmpParts a b = Ordering.lt → cmpParts b c = Ordering.lt →
      cmpParts a c = Ordering.lt := by
  induction a with
  | nil =>
    intro b c hab hbc h1 h2
    cases b with
    | nil => simp [cmpParts] at h1
    | cons y ys => simp at hab
  | cons x xs ih =>
    intro b c hab hbc h1 h2
    cases b with
    | nil => simp at hab
    | cons y ys =>
      cases c with
      | nil => simp at hbc
      | cons z zs =>
        have hab' : xs.length = ys.length := by simpa using hab
        have hbc' : ys.length = zs.length := by simpa using hbc
        cases hxy : cmpNat x y with
        | lt =>
          cases hyz : cmpNat y z with
          | lt =>
            have hz : x < z :=
              lt_trans ((cmpNat_lt_iff x y).mp hxy) ((cmpNat_lt_iff y z).mp hyz)
            simp [cmpParts, (cmpNat_lt_iff x z).mpr hz]
          | eq =>
            have hy : y = z := (cmpNat_eq_iff y z).mp hyz
            have hz : x < z := hy ▸ (cmpNat_lt_iff x y).mp hxy
            simp [cmpParts, (cmpNat_lt_iff x z).mpr hz]
          | gt => simp [cmpParts, hyz] at h2
        | eq =>
          cases hyz : cmpNat y z with
          | lt =>
            have hx : x = y := (cmpNat_eq_iff x y).mp hxy
            have hz : x < z := hx ▸ (cmpNat_lt_iff y z).mp hyz
            simp [cmpParts, (cmpNat_lt_iff x z).mpr hz]
          | eq =>
            have hx : x = y := (cmpNat_eq_iff x y).mp hxy
            have hy : y = z := (cmpNat_eq_iff y z).mp hyz
            simp only [cmpParts, hxy] at h1
            simp only [cmpParts, hyz] at h2
            have hz : cmpNat x z = Ordering.eq :=
              (cmpNat_eq_iff x z).mpr (hx.trans hy)
            simp only [cmpParts, hz]
            exact ih ys zs hab' hbc' h1 h2
          | gt => simp [cmpParts, hyz] at h2
        | gt => simp [cmpParts, hxy] at h1

/-- Claim C9: the version comparison used by try_update is reflexive on
every parsed version string, and on four-component versions it is a total
order: Equal forces component-wise equality, the comparison of the swapped
arguments is the swapped comparison, and strict-less is transitive. -/
theorem c9_version_order :
    (∀ (s : String) (v : VersionM), version_from s = some v →
      cmpParts v.parts v.parts = Ordering.eq) ∧
    (∀ a b : List Nat, a.length = 4 → b.length = 4 →
      cmpParts a b = Ordering.eq → a = b) ∧
    (∀ a b : List Nat, cmpParts b a = (cmpParts a b).swap) ∧
    (∀ a b c : List Nat, a.length = 4 → b.length = 4 → c.length = 4 →
      cmpParts a b = Ordering.lt → cmpParts b c = Ordering.lt →
      cmpParts a c = Ordering.lt) := by
  refine ⟨?_, ?_, ?_, ?_⟩
  · intro s v _
    exact cmpParts_refl v.parts
  · intro a b ha hb
    exact cmpParts_eq_of_length_eq a b (ha.trans hb.symm)
  · intro a b
    exact cmpParts_swap a b
  · intro a b c ha hb hc
    exact cmpParts_lt_trans_of_length a b c (ha.trans hb.symm)
      (hb.trans hc.symm)

/-- Claim C9 witness: the order facts at concrete four-component
versions. -/
theorem c9_witness :
    cmpParts [1, 21, 0, 3] [1, 21, 0, 3] = Ordering.eq ∧
    ([1, 20, 0, 1] : List Nat) = [1, 20, 0, 1] ∧
    cmpParts [1, 19, 0, 0] [1, 21, 0, 3] = Ordering.lt :=
  ⟨c9_version_order.1 "1.21.0.3" ⟨"1.21.0.3", [1, 21, 0, 3]⟩ (by decide),
   c9_version_order.2.1 [1, 20, 0, 1] [1, 20, 0, 1] (by decide) (by decide)
     (by decide),
   c9_version_order.2.2.2 [1, 19, 0, 0] [1, 20, 0, 1] [1, 21, 0, 3]
     (by decide) (by decide) (by decide) (by decide) (by decide)⟩

/-- Claim C4: after version resolution, the merge install is invoked if
and only if current < latest; equal versions take no action and a current
version ahead of the remote is informational only (no error, no state
change, no downgrade install). -/
theorem c4_update_decision (fail : String → Bool) (ext : Option FS)
    (current latest : VersionM) (st : UpdaterState) :
    (cmpParts current.parts latest.parts = Ordering.eq →
      try_update fail ext current latest st = (st, none)) ∧
    (cmpParts current.parts latest.parts = Ordering.gt →
      try_update fail ext current latest st = (st, none)) ∧
    (try_update_action current latest = UpdateAction.installUpdate ↔
      cmpParts current.parts latest.parts = Ordering.lt) ∧
    (cmpParts current.parts latest.parts = Ordering.lt →
      try_update fail ext current latest st =
        install_server fail ext overwrite_blacklist latest.str st) := by
  refine ⟨?_, ?_, ⟨?_, ?_⟩, ?_⟩
  · intro h
    simp [try_update, try_update_action, h]
  · intro h
    simp [try_update, try_update_action, h]
  · intro ha
    cases hc : cmpParts current.parts latest.parts with
    | lt => rfl
    | eq => simp [try_update_action, hc] at ha
    | gt => simp [try_update_action, hc] at ha
  · intro h
    simp [try_update_action, h]
  · intro h
    simp [try_update, try_update_action, h]

/-- Claim C4 witness: a current version strictly behind the latest makes
try_update call install_server with the hard-coded blacklist and the
latest version's text. -/
theorem c4_witness :
    try_update (fun _ => false) none ⟨"1.20.0.1", [1, 20, 0, 1]⟩
      ⟨"1.21.0.3", [1, 21, 0, 3]⟩ ⟨[], none, none⟩ =
      install_server (fun _ => false) none overwrite_blacklist "1.21.0.3"
        ⟨[], none, none⟩ :=
  (c4_update_decision (fun _ => false) none ⟨"1.20.0.1", [1, 20, 0, 1]⟩
    ⟨"1.21.0.3", [1, 21, 0, 3]⟩ ⟨[], none, none⟩).2.2.2 (by decide)

/-- Claim C5: get_current_version is exhaustive over its two option
inputs: with an override it writes the override to the version record and
returns it, even when persisted text exists; with persisted text only it
returns that text without writing; with neither it fails with
NoCurrentVersion.  At the get_versions level an override always leaves the
record equal to the override text. -/
theorem c5_current_version_cases (file v c : String)
    (record : Option String) :
    get_current_version (some v) (some c) record = (Except.ok v, some v) ∧
    get_current_version (some v) none record = (Except.ok v, some v) ∧
    get_current_version none (some c) record = (Except.ok c, record) ∧
    get_current_version none none record =
      (Except.error UErr.noCurrentVersion, record) ∧
    (get_versions file (some c) (some v) record).2 = some v ∧
    (get_versions file none (some v) record).2 = some v := by
  refine ⟨rfl, rfl, rfl, rfl, ?_, ?_⟩
  · cases hv : version_from v with
    | none => simp [get_versions, get_current_version, hv]
    | some cur =>
      cases hg : get_latest_version file with
      | error e => simp [get_versions, get_current_version, hv, hg]
      | ok latStr =>
        cases hl : version_from latStr with
        | none => simp [get_versions, get_current_version, hv, hg, hl]
        | some lat => simp [get_versions, get_current_version, hv, hg, hl]
  · cases hv : version_from v with
    | none => simp [get_versions, get_current_version, hv]
    | some cur =>
      cases hg : get_latest_version file with
      | error e => simp [get_versions, get_current_version, hv, hg]
      | ok latStr =>
        cases hl : version_from latStr with
        | none => simp [get_versions, get_current_version, hv, hg, hl]
        | some lat => simp [get_versions, get_current_version, hv, hg, hl]

/-- Claim C7: link extraction requires exactly one selector match: zero
matches fail with NoDownloadElement, two or more fail with
TooManyDownloadElements, a single match without href fails with
NoDownloadLinkAttr, and otherwise the href is url-parsed and returned. -/
theorem c7_link_extraction (parseUrl : String → Option UrlM)
    (elems : List (Option String)) :
    (elems = [] →
      get_latest_download_link elems parseUrl =
        Except.error UErr.noDownloadElement) ∧
    (2 ≤ elems.length →
      get_latest_download_link elems parseUrl =
        Except.error UErr.tooManyDownloadElements) ∧
    (∀ h : Option String, elems = [h] →
      ((h = none →
        get_latest_download_link elems parseUrl =
          Except.error UErr.noDownloadLinkAttr) ∧
       (∀ link : String, h = some link →
        ((parseUrl link = none →
          get_latest_download_link elems parseUrl =
            Except.error UErr.cannotParseUrl) ∧
         (∀ u : UrlM, parseUrl link = some u →
          get_latest_download_link elems parseUrl = Except.ok u))))) := by
  refine ⟨?_, ?_, ?_⟩
  · intro h
    subst h
    rfl
  · intro h
    cases elems with
    | nil => simp at h
    | cons e1 rest =>
      cases rest with
      | nil => simp at h
      | cons e2 r2 => rfl
  · intro h he
    subst he
    refine ⟨?_, ?_⟩
    · intro hn
      subst hn
      rfl
    · intro link hl
      subst hl
      refine ⟨?_, ?_⟩
      · intro hp
        simp [get_latest_download_link, hp]
      · intro u hp
        simp [get_latest_download_link, hp]

/-- Claim C7 witness: concrete zero-match, two-match and single-good-match
pages. -/
theorem c7_witness :
    get_latest_download_link [] (fun s => some ⟨s, none⟩) =
      Except.error UErr.noDownloadElement ∧
    get_latest_download_link [some "a", some "b"] (fun s => some ⟨s, none⟩) =
      Except.error UErr.tooManyDownloadElements ∧
    get_latest_download_link [some "https://h/y.zip"]
      (fun s => some ⟨s, none⟩) = Except.ok ⟨"https://h/y.zip", none⟩ :=
  ⟨(c7_link_extraction (fun s => some ⟨s, none⟩) []).1 rfl,
   (c7_link_extraction (fun s => some ⟨s, none⟩)
     [some "a", some "b"]).2.1 (by decide),
   ((c7_link_extraction (fun s => some ⟨s, none⟩)
     [some "https://h/y.zip"]).2.2 (some "https://h/y.zip") rfl).2
     "https://h/y.zip" rfl |>.2 ⟨"https://h/y.zip", none⟩ rfl⟩

/-- Claim C6 counterexample: for the url path /1.2.3.4/bedrock-server.zip
the run_updater pipeline takes 1.2.3.4 from a directory component of the
path, although the file name bedrock-server.zip contains no version
substring (main.rs, which restricts to the file name, errors instead), so
a version-like substring outside the file name is taken as the latest
version. -/
theorem c6_counterexample :
    run_updater_latest ⟨"/1.2.3.4/bedrock-server.zip", none⟩ =
      Except.ok "1.2.3.4" ∧
    fileNameOf "/1.2.3.4/bedrock-server.zip" = some "bedrock-server.zip" ∧
    findVersion "bedrock-server.zip" = none ∧
    main_get_latest_version "/1.2.3.4/bedrock-server.zip" =
      Except.error UErr.noVersionString := by
  exact ⟨rfl, rfl, rfl, rfl⟩

/-- Claim C6 (amended): only the url's path component is ever used for
version extraction, so the query string never influences the result; the
main.rs pipeline restricts further to the path's file name, but
BedrockUpdater::run_updater applies the version regex to the whole path,
so a version-like substring in a directory component of the path can be
taken as the latest version. -/
theorem c6_path_component_only :
    (∀ u1 u2 : UrlM, u1.path = u2.path →
      run_updater_latest u1 = run_updater_latest u2) ∧
    (∀ u : UrlM, run_updater_latest u = get_latest_version u.path) ∧
    (∀ p fn : String, fileNameOf p = some fn →
      main_get_latest_version p = get_latest_version fn) := by
  refine ⟨?_, ?_, ?_⟩
  · intro u1 u2 h
    simp [run_updater_latest, h]
  · intro u
    rfl
  · intro p fn h
    simp [main_get_latest_version, h]

/-- Claim C6 witness: a query string does not change the resolved version
and main.rs resolves through the file name. -/
theorem c6_witness :
    run_updater_latest
      ⟨"/x/bedrock-server-1.21.0.3.zip", some "v=9.9.9.9"⟩ =
      run_updater_latest ⟨"/x/bedrock-server-1.21.0.3.zip", none⟩ ∧
    main_get_latest_version "/x/bedrock-server-1.21.0.3.zip" =
      get_latest_version "bedrock-server-1.21.0.3.zip" :=
  ⟨c6_path_component_only.1 ⟨"/x/bedrock-server-1.21.0.3.zip",
      some "v=9.9.9.9"⟩ ⟨"/x/bedrock-server-1.21.0.3.zip", none⟩ rfl,
   c6_path_component_only.2.2 "/x/bedrock-server-1.21.0.3.zip"
     "bedrock-server-1.21.0.3.zip" (by decide)⟩

/-- Claim C8 counterexample: the persisted current-version text 1.2.3
contains no substring matching the four-component version regex, yet
get_versions parses it successfully into the three-component version
[1, 2, 3] instead of failing with NoVersionString: only the latest version
goes through the regex. -/
theorem c8_counterexample :
    get_versions "bedrock-server-1.21.0.3.zip" (some "1.2.3") none
      (some "1.2.3") =
      (Except.ok (⟨"1.2.3", [1, 2, 3]⟩, ⟨"1.21.0.3", [1, 21, 0, 3]⟩),
        some "1.2.3") ∧
    findVersion "1.2.3" = none := by
  exact ⟨rfl, rfl⟩

/-- Claim C8 (amended): the latest version is parsed by extracting the
first substring matching the four-component regex (NoVersionString when
none exists) and decomposing it into integers (UnparseableVersion when
that fails); the current version text, persisted or override, is handed to
the version parser directly without the four-component regex check, so it
fails only as UnparseableVersion and may have any number of components. -/
theorem c8_version_parsing :
    (∀ (file cur : String) (r : Option String),
      (version_from cur = none →
        get_versions file (some cur) none r =
          (Except.error UErr.unparseableVersion, r)) ∧
      (∀ cv : VersionM, version_from cur = some cv →
        findVersion file = none →
        get_versions file (some cur) none r =
          (Except.error UErr.noVersionString, r)) ∧
      (∀ (cv lv : VersionM) (m : String), version_from cur = some cv →
        findVersion file = some m → version_from m = some lv →
        get_versions file (some cur) none r = (Except.ok (cv, lv), r))) ∧
    (∀ (file ov : String) (contents r : Option String) (cv lv : VersionM)
      (m : String), version_from ov = some cv → findVersion file = some m →
      version_from m = some lv →
      get_versions file contents (some ov) r =
        (Except.ok (cv, lv), some ov)) := by
  constructor
  · intro file cur r
    refine ⟨?_, ?_, ?_⟩
    · intro h
      simp [get_versions, get_current_version, h]
    · intro cv hcv hf
      simp [get_versions, get_current_version, get_latest_version, hcv, hf]
    · intro cv lv m hcv hf hm
      simp [get_versions, get_current_version, get_latest_version, hcv, hf,
        hm]
  · intro file ov contents r cv lv m hcv hf hm
    cases contents <;>
      simp [get_versions, get_current_version, get_latest_version, hcv, hf,
        hm]

/-- Claim C8 witness: a two-component persisted text parses fine while the
latest version comes out of the regex match of the file name. -/
theorem c8_witness :
    get_versions "x-1.2.3.4.zip" (some "9.9") none none =
      (Except.ok (⟨"9.9", [9, 9]⟩, ⟨"1.2.3.4", [1, 2, 3, 4]⟩), none) :=
  (c8_version_parsing.1 "x-1.2.3.4.zip" "9.9" none).2.2 ⟨"9.9", [9, 9]⟩
    ⟨"1.2.3.4", [1, 2, 3, 4]⟩ "1.2.3.4" (by decide) (by decide) (by decide)

end BedrockUpdater
